import Mathlib

/-!
Verification of the difx streaming explanation pipeline.

Shallow embedding of the difx repository's core logic:

* the incremental terminal renderer of `src/cmd/root.go` (the streaming
  consumer goroutine, `convertEscapeSequences`, and
  `cleanIncompleteEscapeSequences`),
* the Claude and Azure OpenAI stream decoders and non-streaming response
  handlers of `src/diff/llm.go`,
* the empty-diff short circuit of `rootCmd.Run`.

Text is modelled as `List Char`.  All streamed text relevant here is ASCII
plus the one-byte ESC control character, so Go's byte indexing and byte
lengths coincide with character indexing and character counts.
-/

namespace Difx

/-! ### Terminal color codes

`github.com/fatih/color` with `color.New(color.FgGreen, color.Bold)` renders
`Sprint(s)` as `"\x1b[32;1m" ++ s ++ "\x1b[0m"`, and with
`color.New(color.FgRed, color.Bold)` as `"\x1b[31;1m" ++ s ++ "\x1b[0m"`
(`color.NoColor` is forced to `false` in `src/cmd/root.go:init`). -/

def escChar : Char := '\x1b'

def greenStartCode : List Char := escChar :: "[32;1m".toList

def redStartCode : List Char := escChar :: "[31;1m".toList

def resetCode : List Char := escChar :: "[0m".toList

def greenWrap (s : List Char) : List Char := greenStartCode ++ s ++ resetCode

def redWrap (s : List Char) : List Char := redStartCode ++ s ++ resetCode

/-! ### cleanIncompleteEscapeSequences (src/cmd/root.go:161-247) -/

/-- The ordered suffix table of `cleanIncompleteEscapeSequences`
(src/cmd/root.go:163-247).  The source is a chain of `strings.HasSuffix`
checks in exactly this order, first match wins, and in every branch the
number of characters stripped equals the length of the checked suffix, so
the chain is embedded as `List.find?` over the table in source order. -/
def markerSuffixTable : List (List Char) :=
  ["\\", "\\0", "\\03", "\\033", "\\033[", "\\033[3", "\\033[32", "\\033[32;",
   "\\033[32;1", "\\033[31", "\\033[31;", "\\033[31;1",
   "[", "[A", "[AD", "[ADD", "[D", "[DE", "[DEL",
   "G", "GR", "GREEN_START", "R", "RE", "RED_START"].map String.toList

/-- src/cmd/root.go:161-247: remove the first table entry (in source order)
that is a suffix of `text`; if none matches, return `text` unchanged. -/
def cleanIncompleteEscapeSequences (text : List Char) : List Char :=
  match markerSuffixTable.find? (fun pat => decide (pat <:+ text)) with
  | some pat => text.take (text.length - pat.length)
  | none => text

/-! ### convertEscapeSequences (src/cmd/root.go:110-159) -/

/-- Recursion core of `replaceAll`.  The fuel argument only makes the
recursion structural (each step consumes at least one character, so any
fuel of at least the list length gives the same result, see
`replaceAllGo_fuel_irrel`); it is initialized with the text length in
`replaceAll`. -/
def replaceAllGo (p : Char) (ps rep : List Char) : Nat → List Char → List Char
  | _, [] => []
  | 0, l => l
  | fuel + 1, c :: rest =>
    if (p :: ps) <+: (c :: rest) then
      rep ++ replaceAllGo p ps rep fuel ((c :: rest).drop (p :: ps).length)
    else
      c :: replaceAllGo p ps rep fuel rest

/-- Go `strings.ReplaceAll text pat rep` for a non-empty pattern `p :: ps`:
leftmost, non-overlapping, replacements not rescanned
(src/cmd/root.go:112 uses it with pattern `"\\033"`). -/
def replaceAll (p : Char) (ps rep l : List Char) : List Char :=
  replaceAllGo p ps rep l.length l

/-- Lazy search for the closing token of a Go regexp span `open(.*?)close`:
returns the shortest newline-free inner text before an occurrence of
`closeT`, together with the remainder after that occurrence.  Go's `.`
does not match a newline, hence the `'\n'` cutoff. -/
def findClose (closeT : List Char) : List Char → Option (List Char × List Char)
  | [] => none
  | c :: rest =>
    if closeT <+: (c :: rest) then some ([], (c :: rest).drop closeT.length)
    else if c = '\n' then none
    else
      match findClose closeT rest with
      | some (inner, after) => some (c :: inner, after)
      | none => none

/-- Recursion core of `replaceTagged`.  As with `replaceAllGo`, the fuel
argument only makes the recursion structural; any fuel of at least the
list length gives the same result (`replaceTaggedGo_fuel_irrel`). -/
def replaceTaggedGo (o : Char) (os closeT : List Char) (wrap : List Char → List Char) :
    Nat → List Char → List Char
  | _, [] => []
  | 0, l => l
  | fuel + 1, c :: rest =>
    if (o :: os) <+: (c :: rest) then
      match findClose closeT ((c :: rest).drop (o :: os).length) with
      | some (inner, after) => wrap inner ++ replaceTaggedGo o os closeT wrap fuel after
      | none => c :: replaceTaggedGo o os closeT wrap fuel rest
    else
      c :: replaceTaggedGo o os closeT wrap fuel rest

/-- Go `regexp.ReplaceAllStringFunc` for the patterns of src/cmd/root.go
(all of the shape `open(.*?)close`, the replacement wrapping the captured
group in color codes): leftmost shortest matches, non-overlapping, and the
replacement text is not rescanned.  The opening token is passed as
`o :: os`. -/
def replaceTagged (o : Char) (os closeT : List Char) (wrap : List Char → List Char)
    (l : List Char) : List Char :=
  replaceTaggedGo o os closeT wrap l.length l

/-- src/cmd/root.go:110-159 `convertEscapeSequences`: replace the literal
four-character sequence `\033` with the ESC byte, then resolve
`[ADD]…[/ADD]` (green), `[DEL]…[/DEL]` (red), `GREEN_START…GREEN_END`
(green) and `RED_START…RED_END` (red) spans, in that order. -/
def convertEscapeSequences (text : List Char) : List Char :=
  replaceTagged 'R' ("ED_START".toList) ("RED_END".toList) redWrap
    (replaceTagged 'G' ("REEN_START".toList) ("GREEN_END".toList) greenWrap
      (replaceTagged '[' ("DEL]".toList) ("[/DEL]".toList) redWrap
        (replaceTagged '[' ("ADD]".toList) ("[/ADD]".toList) greenWrap
          (replaceAll '\\' ("033".toList) [escChar] text))))

/-! ### The streaming consumer goroutine (src/cmd/root.go:58-85) -/

/-- State of the display goroutine: `buffer` holds all raw chunks received
so far, `lastProcessed` the processed text at the last write, and `out`
the concatenation of every suffix written to the terminal. -/
structure RenderState where
  buffer : List Char
  lastProcessed : List Char
  out : List Char

def initialRenderState : RenderState := ⟨[], [], []⟩

/-- One iteration of `for chunk := range outputChan` in src/cmd/root.go:62-81:
append the chunk, trim an incomplete marker suffix, resolve markers, and
write only the part beyond the previously processed length. -/
def processChunk (st : RenderState) (chunk : List Char) : RenderState :=
  let buffer := st.buffer ++ chunk
  let currentText := cleanIncompleteEscapeSequences buffer
  let processedText := convertEscapeSequences currentText
  if st.lastProcessed.length < processedText.length then
    ⟨buffer, processedText, st.out ++ processedText.drop st.lastProcessed.length⟩
  else
    ⟨buffer, st.lastProcessed, st.out⟩

/-- The whole consumer loop on an ordered chunk sequence (the channel
delivers chunks in producer order; the final newline of line 84 is omitted,
being identical for every run). -/
def runStream (chunks : List (List Char)) : RenderState :=
  chunks.foldl processChunk initialRenderState

/-! ### Non-streaming response handling (src/diff/llm.go:309-336, 535-562) -/

/-- A block of content in the Claude API response (src/diff/llm.go:51-54). -/
structure ContentBlock where
  type : List Char
  text : List Char

/-- The extraction step of `handleClaudeNonStreamingResponse`
(src/diff/llm.go:330-335), applied to the decoded `Content` array of a
200-status response: take the first block's text if the first block is
text-typed, otherwise fail. -/
def handleClaudeNonStreamingResponse (content : List ContentBlock) :
    Except (List Char) (List Char) :=
  match content with
  | b :: _ =>
    if b.type = "text".toList then Except.ok b.text
    else Except.error ("no text content found in Claude API response".toList)
  | [] => Except.error ("no text content found in Claude API response".toList)

/-- A message in the Azure OpenAI API exchange (src/diff/llm.go:348-351). -/
structure AzureOpenAIMessage where
  content : List Char

/-- A choice in the Azure OpenAI non-streaming response
(src/diff/llm.go:363-367). -/
structure AzureOpenAIResponseChoice where
  message : AzureOpenAIMessage

/-- The extraction step of `handleAzureOpenAINonStreamingResponse`
(src/diff/llm.go:556-561): take the first choice's message content if any
choice exists, otherwise fail. -/
def handleAzureOpenAINonStreamingResponse (choices : List AzureOpenAIResponseChoice) :
    Except (List Char) (List Char) :=
  match choices with
  | c :: _ => Except.ok c.message.content
  | [] => Except.error ("no content found in Azure OpenAI API response".toList)

/-- Go `unicode.IsSpace` restricted to ASCII (all text in the claims is
ASCII). -/
def isSpaceChar (c : Char) : Bool :=
  c = ' ' || c = '\t' || c = '\n' || c = '\x0b' || c = '\x0c' || c = '\r'

/-- Go `strings.TrimSpace` on ASCII text. -/
def trimSpace (l : List Char) : List Char :=
  ((l.dropWhile isSpaceChar).reverse.dropWhile isSpaceChar).reverse

/-- The spec's description (§4.2) of the Claude non-streaming result:
concatenate the texts of all content blocks whose type is `"text"`, then
strip leading and trailing whitespace.  Stated from the spec's words, for
comparison with `handleClaudeNonStreamingResponse`. -/
def specClaudeNonStreamingText (content : List ContentBlock) : List Char :=
  trimSpace ((content.filter (fun b => b.type == "text".toList)).map ContentBlock.text).flatten

/-- The spec's description (§4.2) of the Azure non-streaming result: the
first choice's message content, stripped of leading and trailing
whitespace.  Stated from the spec's words, for comparison with
`handleAzureOpenAINonStreamingResponse`. -/
def specAzureNonStreamingText (choices : List AzureOpenAIResponseChoice) : List Char :=
  match choices with
  | c :: _ => trimSpace c.message.content
  | [] => []

/-! ### Claude stream decoder (src/diff/llm.go:181-306) -/

/-- The delta of a Claude streaming event (src/diff/llm.go:88-93); `dtype`
embeds the JSON field `Type`. -/
structure StreamDelta where
  dtype : List Char
  text : List Char

/-- A decoded Claude streaming event (src/diff/llm.go:68-74); only the
fields the dispatch loop reads are embedded. -/
structure StreamEvent where
  delta : Option StreamDelta
  contentBlock : Option ContentBlock

/-- SSE line loop of `handleClaudeStreamingResponse`
(src/diff/llm.go:209-285), abstracted over the JSON decoder `decode`
(`none` models a `json.Unmarshal` failure).  Returns the ordered list of
text chunks sent to the content channel (each of which is also handed to
the rendering callback at the same program point, line 261-266) and
whether the loop ended on the error path.  The second argument is the
persisted current event type.  The `message_start`, `content_block_start`,
`content_block_stop` and `message_delta` cases of the source switch have
empty bodies and land in the final catch-all. -/
def handleClaudeStreamingLines (decode : List Char → Option StreamEvent) :
    List (List Char) → List Char → List (List Char) × Bool
  | [], _ => ([], false)
  | line :: rest, eventType =>
    if line = [] ∨ (":".toList) <+: line then
      handleClaudeStreamingLines decode rest eventType
    else if ("event: ".toList) <+: line then
      handleClaudeStreamingLines decode rest (line.drop 7)
    else if ("data: ".toList) <+: line then
      if eventType = "ping".toList then
        handleClaudeStreamingLines decode rest eventType
      else
        match decode (line.drop 6) with
        | none => ([], true)
        | some ev =>
          if eventType = "content_block_delta".toList then
            match ev.delta with
            | some d =>
              if d.dtype = "text_delta".toList ∧ d.text ≠ [] then
                let r := handleClaudeStreamingLines decode rest eventType
                (d.text :: r.1, r.2)
              else handleClaudeStreamingLines decode rest eventType
            | none => handleClaudeStreamingLines decode rest eventType
          else if eventType = "message_stop".toList then ([], false)
          else handleClaudeStreamingLines decode rest eventType
    else handleClaudeStreamingLines decode rest eventType

/-! ### Azure OpenAI stream decoder (src/diff/llm.go:437-532) -/

/-- The delta of an Azure streaming choice (src/diff/llm.go:386-389). -/
structure AzureOpenAIDelta where
  content : List Char

/-- A choice in an Azure streaming chunk (src/diff/llm.go:379-383). -/
structure AzureOpenAIStreamChoice where
  delta : AzureOpenAIDelta
  finishReason : List Char

/-- The per-chunk choices loop of src/diff/llm.go:493-509: returns the
deltas emitted in order and whether a choice with a non-empty finish
reason was reached (in which case the source closes the channel and
returns, skipping the remaining choices). -/
def processAzureChoices : List AzureOpenAIStreamChoice → List (List Char) × Bool
  | [] => ([], false)
  | ch :: rest =>
    let emitted := if ch.delta.content ≠ [] then [ch.delta.content] else []
    if ch.finishReason ≠ [] then (emitted, true)
    else
      let r := processAzureChoices rest
      (emitted ++ r.1, r.2)

/-- SSE line loop of `handleAzureOpenAIStreamingResponse`
(src/diff/llm.go:467-511), abstracted over the JSON decoder, which yields
the `choices` array of a decoded chunk (`none` models an unmarshal
failure).  Returns the emitted chunks and whether the loop ended on the
error path. -/
def handleAzureOpenAIStreamingLines
    (decode : List Char → Option (List AzureOpenAIStreamChoice)) :
    List (List Char) → List (List Char) × Bool
  | [] => ([], false)
  | line :: rest =>
    if line = [] ∨ (":".toList) <+: line then
      handleAzureOpenAIStreamingLines decode rest
    else if ("data: ".toList) <+: line then
      if line.drop 6 = "[DONE]".toList then ([], false)
      else
        match decode (line.drop 6) with
        | none => ([], true)
        | some choices =>
          let c := processAzureChoices choices
          if c.2 then (c.1, false)
          else
            let r := handleAzureOpenAIStreamingLines decode rest
            (c.1 ++ r.1, r.2)
    else handleAzureOpenAIStreamingLines decode rest

/-! ### The empty-diff short circuit (src/cmd/root.go:49-101) -/

/-- Outcome of one `rootCmd.Run` invocation after the diff text has been
obtained. -/
structure RunOutcome where
  message : List Char
  providerCalls : Nat
  exitCode : Nat

/-- Modelled from the spec: the process-exit plumbing (the `main` entry
point is not under src/, so exit codes follow spec §6 and §7: 0 on
success, 1 on any propagated error).  The branch structure is
src/cmd/root.go:49-101: an empty diff prints "No differences found." and
returns before the output channel is created and before
`diff.GetExplanation` — the single provider invocation — is reached;
otherwise the provider is called exactly once, and a provider error makes
the run exit non-zero via `os.Exit(1)`. -/
def runWithDiffOutput (diffOutput : List Char) (providerFails : Bool) : RunOutcome :=
  if diffOutput = [] then ⟨"No differences found.".toList, 0, 0⟩
  else if providerFails then ⟨[], 1, 1⟩
  else ⟨[], 1, 0⟩


/-! ### Well-formed marker segments (used to state the renderer claims) -/

/-- A segmentation of a text into plain runs and well-formed bracket-tag
spans. -/
inductive Seg where
  | plain : List Char → Seg
  | add : List Char → Seg
  | del : List Char → Seg

/-- The inner text of a segment. -/
def Seg.content : Seg → List Char
  | .plain s => s
  | .add s => s
  | .del s => s

/-- The literal text of a segment as produced by the model. -/
def Seg.text : Seg → List Char
  | .plain s => s
  | .add s => "[ADD]".toList ++ s ++ "[/ADD]".toList
  | .del s => "[DEL]".toList ++ s ++ "[/DEL]".toList

/-- The colorized rendering of a segment per the spec (green+bold for
additions, red+bold for deletions, reset after). -/
def Seg.render : Seg → List Char
  | .plain s => s
  | .add s => greenWrap s
  | .del s => redWrap s

/-- A segment after the `[ADD]` pass of `convertEscapeSequences` only. -/
def Seg.afterAdd : Seg → List Char
  | .plain s => s
  | .add s => greenWrap s
  | .del s => "[DEL]".toList ++ s ++ "[/DEL]".toList

def segsText (l : List Seg) : List Char := (l.map Seg.text).flatten

def segsRender (l : List Seg) : List Char := (l.map Seg.render).flatten

/-- Marker-free content: no bracket, no backslash, no underscore, no
newline.  Such text can never interact with any marker syntax. -/
abbrev cleanContent (s : List Char) : Prop :=
  ∀ c ∈ s, c ≠ '[' ∧ c ≠ '\\' ∧ c ≠ '_' ∧ c ≠ '\n'

/-- The proper non-empty prefixes of the recognized opening tokens
`[ADD]`, `[DEL]`, `\033[32;1m` and `\033[31;1m` — the part of the
suffix-trimming table of src/cmd/root.go:161-247 that is actually
exhaustive. -/
def coveredMarkerPrefixes : List (List Char) :=
  ["[", "[A", "[AD", "[ADD", "[D", "[DE", "[DEL",
   "\\", "\\0", "\\03", "\\033", "\\033[", "\\033[3", "\\033[32", "\\033[32;",
   "\\033[32;1", "\\033[31", "\\033[31;", "\\033[31;1"].map String.toList

/-! ## General lemmas -/

theorem replaceAllGo_fuel_irrel (p : Char) (ps rep : List Char) :
    ∀ (f₁ : Nat) (f₂ : Nat) (l : List Char), l.length ≤ f₁ → l.length ≤ f₂ →
      replaceAllGo p ps rep f₁ l = replaceAllGo p ps rep f₂ l := by
  intro f₁
  induction f₁ with
  | zero =>
    intro f₂ l h1 _
    have : l = [] := List.length_eq_zero.mp (Nat.le_zero.mp h1)
    subst this
    cases f₂ <;> simp [replaceAllGo]
  | succ a ih =>
    intro f₂ l h1 h2
    match l, f₂ with
    | [], _ => cases f₂ <;> simp [replaceAllGo]
    | c :: rest, 0 => simp at h2
    | c :: rest, b + 1 =>
      simp only [replaceAllGo]
      split
      · have hd : ((c :: rest).drop (p :: ps).length).length ≤ a := by
          simp only [List.length_drop, List.length_cons] at *
          omega
        have hd2 : ((c :: rest).drop (p :: ps).length).length ≤ b := by
          simp only [List.length_drop, List.length_cons] at *
          omega
        rw [ih b _ hd hd2]
      · have hr : rest.length ≤ a := by simp at h1; omega
        have hr2 : rest.length ≤ b := by simp at h2; omega
        rw [ih b _ hr hr2]

theorem replaceAll_nil (p : Char) (ps rep : List Char) :
    replaceAll p ps rep [] = [] := rfl

/-- The defining unfolding of `replaceAll` on a non-empty text. -/
theorem replaceAll_cons (p : Char) (ps rep : List Char) (c : Char) (rest : List Char) :
    replaceAll p ps rep (c :: rest) =
      if (p :: ps) <+: (c :: rest) then
        rep ++ replaceAll p ps rep ((c :: rest).drop (p :: ps).length)
      else
        c :: replaceAll p ps rep rest := by
  show replaceAllGo p ps rep (rest.length + 1) (c :: rest) = _
  simp only [replaceAllGo]
  split
  · rw [replaceAllGo_fuel_irrel p ps rep rest.length _ _
      (by simp only [List.length_drop, List.length_cons]; omega) (Nat.le_refl _)]
    rfl
  · rw [replaceAllGo_fuel_irrel p ps rep rest.length _ _ (Nat.le_refl _) (Nat.le_refl _)]
    rfl

theorem findClose_after_length (closeT : List Char) :
    ∀ (l : List Char) {inner after : List Char},
      findClose closeT l = some (inner, after) → after.length ≤ l.length := by
  intro l
  induction l with
  | nil => intro inner after h; simp [findClose] at h
  | cons c rest ih =>
    intro inner after h
    simp only [findClose] at h
    split at h
    · rcases h with ⟨rfl, rfl⟩
      simp only [List.length_drop, List.length_cons]
      omega
    · split at h
      · exact absurd h (by simp)
      · split at h
        next inner' after' heq =>
          rcases h with ⟨rfl, rfl⟩
          exact Nat.le_succ_of_le (ih heq)
        next => exact absurd h (by simp)

theorem replaceTaggedGo_fuel_irrel (o : Char) (os closeT : List Char)
    (wrap : List Char → List Char) :
    ∀ (f₁ : Nat) (f₂ : Nat) (l : List Char), l.length ≤ f₁ → l.length ≤ f₂ →
      replaceTaggedGo o os closeT wrap f₁ l = replaceTaggedGo o os closeT wrap f₂ l := by
  intro f₁
  induction f₁ with
  | zero =>
    intro f₂ l h1 _
    have : l = [] := List.length_eq_zero.mp (Nat.le_zero.mp h1)
    subst this
    cases f₂ <;> simp [replaceTaggedGo]
  | succ a ih =>
    intro f₂ l h1 h2
    match l, f₂ with
    | [], _ => cases f₂ <;> simp [replaceTaggedGo]
    | c :: rest, 0 => simp at h2
    | c :: rest, b + 1 =>
      simp only [replaceTaggedGo]
      split
      · split
        next inner after hm =>
          have hfc := findClose_after_length closeT _ hm
          simp only [List.length_drop, List.length_cons] at hfc
          have hd : after.length ≤ a := by simp at h1; omega
          have hd2 : after.length ≤ b := by simp at h2; omega
          rw [ih b _ hd hd2]
        next =>
          have hr : rest.length ≤ a := by simp at h1; omega
          have hr2 : rest.length ≤ b := by simp at h2; omega
          rw [ih b _ hr hr2]
      · have hr : rest.length ≤ a := by simp at h1; omega
        have hr2 : rest.length ≤ b := by simp at h2; omega
        rw [ih b _ hr hr2]

theorem replaceTagged_nil (o : Char) (os closeT : List Char)
    (wrap : List Char → List Char) : replaceTagged o os closeT wrap [] = [] := rfl

/-- The defining unfolding of `replaceTagged` on a non-empty text. -/
theorem replaceTagged_cons (o : Char) (os closeT : List Char)
    (wrap : List Char → List Char) (c : Char) (rest : List Char) :
    replaceTagged o os closeT wrap (c :: rest) =
      if (o :: os) <+: (c :: rest) then
        match findClose closeT ((c :: rest).drop (o :: os).length) with
        | some (inner, after) => wrap inner ++ replaceTagged o os closeT wrap after
        | none => c :: replaceTagged o os closeT wrap rest
      else
        c :: replaceTagged o os closeT wrap rest := by
  show replaceTaggedGo o os closeT wrap (rest.length + 1) (c :: rest) = _
  simp only [replaceTaggedGo]
  split
  · split
    next inner after hm =>
      have hfc := findClose_after_length closeT _ hm
      simp only [List.length_drop, List.length_cons] at hfc
      rw [replaceTaggedGo_fuel_irrel o os closeT wrap rest.length _ _
        (by omega) (Nat.le_refl _)]
      rfl
    next =>
      rw [replaceTaggedGo_fuel_irrel o os closeT wrap rest.length _ _
        (Nat.le_refl _) (Nat.le_refl _)]
      rfl
  · rw [replaceTaggedGo_fuel_irrel o os closeT wrap rest.length _ _
      (Nat.le_refl _) (Nat.le_refl _)]
    rfl

theorem replaceTagged_cons_ne (o : Char) (os closeT : List Char)
    (wrap : List Char → List Char) (c : Char) (l : List Char) (h : c ≠ o) :
    replaceTagged o os closeT wrap (c :: l) = c :: replaceTagged o os closeT wrap l := by
  rw [replaceTagged_cons, if_neg]
  intro hp
  exact h (List.cons_prefix_cons.mp hp).1.symm

theorem replaceTagged_cons_not_pre (o : Char) (os closeT : List Char)
    (wrap : List Char → List Char) (c : Char) (l : List Char)
    (h : ¬ (o :: os) <+: (c :: l)) :
    replaceTagged o os closeT wrap (c :: l) = c :: replaceTagged o os closeT wrap l := by
  rw [replaceTagged_cons, if_neg h]

theorem replaceTagged_cons_cons_ne (o o₂ : Char) (os closeT : List Char)
    (wrap : List Char → List Char) (c b : Char) (l : List Char) (h : c ≠ o ∨ b ≠ o₂) :
    replaceTagged o (o₂ :: os) closeT wrap (c :: b :: l)
      = c :: replaceTagged o (o₂ :: os) closeT wrap (b :: l) := by
  rw [replaceTagged_cons, if_neg]
  intro hp
  obtain ⟨h1, hp2⟩ := List.cons_prefix_cons.mp hp
  obtain ⟨h2, _⟩ := List.cons_prefix_cons.mp hp2
  rcases h with h | h
  · exact h h1.symm
  · exact h h2.symm

theorem replaceTagged_append_cleanChars (o : Char) (os closeT : List Char)
    (wrap : List Char → List Char) (u l : List Char) (h : ∀ x ∈ u, x ≠ o) :
    replaceTagged o os closeT wrap (u ++ l) = u ++ replaceTagged o os closeT wrap l := by
  induction u with
  | nil => simp
  | cons x u ih =>
    simp only [List.cons_append]
    rw [replaceTagged_cons_ne o os closeT wrap x _ (h x (by simp))]
    rw [ih (fun y hy => h y (by simp [hy]))]

theorem replaceTagged_id_of_cleanChars (o : Char) (os closeT : List Char)
    (wrap : List Char → List Char) (x : Char) (l : List Char)
    (hx : x ∈ o :: os) (h : ∀ c ∈ l, c ≠ x) :
    replaceTagged o os closeT wrap l = l := by
  induction l with
  | nil => rfl
  | cons c rest ih =>
    rw [replaceTagged_cons, if_neg]
    · rw [ih (fun y hy => h y (List.mem_cons_of_mem _ hy))]
    · intro hp
      exact h x (hp.subset hx) rfl

theorem findClose_of_cleanChars (d : Char) (ds : List Char) (s t : List Char)
    (h : ∀ c ∈ s, c ≠ d ∧ c ≠ '\n') :
    findClose (d :: ds) (s ++ (d :: ds) ++ t) = some (s, t) := by
  induction s with
  | nil =>
    simp only [List.nil_append]
    show findClose (d :: ds) (d :: (ds ++ t)) = some ([], t)
    simp only [findClose]
    rw [if_pos]
    · have : (d :: (ds ++ t)).drop (d :: ds).length = t := List.drop_left (d :: ds) t
      rw [this]
    · exact List.prefix_append _ _
  | cons c s ih =>
    have hc := h c (by simp)
    simp only [List.cons_append]
    simp only [findClose]
    rw [if_neg, if_neg hc.2]
    · rw [ih (fun y hy => h y (by simp [hy]))]
    · intro hp
      exact hc.1 (List.cons_prefix_cons.mp hp).1.symm

theorem findClose_none_of_cleanChars (d : Char) (ds : List Char) (l : List Char)
    (h : ∀ c ∈ l, c ≠ d) :
    findClose (d :: ds) l = none := by
  induction l with
  | nil => rfl
  | cons c rest ih =>
    simp only [findClose]
    rw [if_neg (fun hp => (h c (by simp)) (List.cons_prefix_cons.mp hp).1.symm)]
    by_cases hc : c = '\n'
    · rw [if_pos hc]
    · rw [if_neg hc, ih (fun y hy => h y (by simp [hy]))]

theorem replaceTagged_resolve (o : Char) (os : List Char) (d : Char)
    (ds : List Char) (wrap : List Char → List Char) (s t : List Char)
    (h : ∀ c ∈ s, c ≠ d ∧ c ≠ '\n') :
    replaceTagged o os (d :: ds) wrap ((o :: os) ++ s ++ (d :: ds) ++ t)
      = wrap s ++ replaceTagged o os (d :: ds) wrap t := by
  have hshape : (o :: os) ++ s ++ (d :: ds) ++ t
      = o :: (os ++ (s ++ (d :: ds) ++ t)) := by
    simp [List.append_assoc]
  rw [hshape, replaceTagged_cons, if_pos]
  · have hdrop : (o :: (os ++ (s ++ (d :: ds) ++ t))).drop (o :: os).length
        = s ++ (d :: ds) ++ t := by
      show (o :: (os ++ (s ++ (d :: ds) ++ t))).drop (os.length + 1) = _
      rw [List.drop_succ_cons]
      exact List.drop_left os _
    rw [hdrop, findClose_of_cleanChars d ds s t h]
  · show (o :: os) <+: (o :: os) ++ (s ++ (d :: ds) ++ t)
    exact List.prefix_append _ _

theorem replaceAll_cons_ne (p : Char) (ps rep : List Char) (c : Char)
    (l : List Char) (h : c ≠ p) :
    replaceAll p ps rep (c :: l) = c :: replaceAll p ps rep l := by
  rw [replaceAll_cons, if_neg]
  intro hp
  exact h (List.cons_prefix_cons.mp hp).1.symm

theorem replaceAll_append_cleanChars (p : Char) (ps rep : List Char) (u l : List Char)
    (h : ∀ x ∈ u, x ≠ p) :
    replaceAll p ps rep (u ++ l) = u ++ replaceAll p ps rep l := by
  induction u with
  | nil => simp
  | cons x u ih =>
    simp only [List.cons_append]
    rw [replaceAll_cons_ne p ps rep x _ (h x (by simp))]
    rw [ih (fun y hy => h y (by simp [hy]))]

theorem replaceAll_id_of_cleanChars (p : Char) (ps rep : List Char) (l : List Char)
    (h : ∀ c ∈ l, c ≠ p) :
    replaceAll p ps rep l = l := by
  induction l with
  | nil => rfl
  | cons c rest ih =>
    rw [replaceAll_cons_ne p ps rep c rest (h c (by simp))]
    rw [ih (fun y hy => h y (by simp [hy]))]

theorem replaceAll_resolve (p : Char) (ps rep t : List Char) :
    replaceAll p ps rep ((p :: ps) ++ t) = rep ++ replaceAll p ps rep t := by
  have hshape : (p :: ps) ++ t = p :: (ps ++ t) := rfl
  rw [hshape, replaceAll_cons, if_pos]
  · have hdrop : (p :: (ps ++ t)).drop (p :: ps).length = t := by
      show (p :: (ps ++ t)).drop (ps.length + 1) = _
      rw [List.drop_succ_cons]
      exact List.drop_left ps t
    rw [hdrop]
  · show (p :: ps) <+: (p :: ps) ++ t
    exact List.prefix_append _ _

/-! ### Expansions of the string literals used in the definitions -/

theorem tl033 : "033".toList = ['0', '3', '3'] := rfl

theorem tlADDos : "ADD]".toList = ['A', 'D', 'D', ']'] := rfl

theorem tlDELos : "DEL]".toList = ['D', 'E', 'L', ']'] := rfl

theorem tlADDopen : "[ADD]".toList = ['[', 'A', 'D', 'D', ']'] := rfl

theorem tlADDclose : "[/ADD]".toList = ['[', '/', 'A', 'D', 'D', ']'] := rfl

theorem tlDELopen : "[DEL]".toList = ['[', 'D', 'E', 'L', ']'] := rfl

theorem tlDELclose : "[/DEL]".toList = ['[', '/', 'D', 'E', 'L', ']'] := rfl

theorem tlGREENos : "REEN_START".toList
    = ['R', 'E', 'E', 'N', '_', 'S', 'T', 'A', 'R', 'T'] := rfl

theorem tlGREENclose : "GREEN_END".toList
    = ['G', 'R', 'E', 'E', 'N', '_', 'E', 'N', 'D'] := rfl

theorem tlREDos : "ED_START".toList = ['E', 'D', '_', 'S', 'T', 'A', 'R', 'T'] := rfl

theorem tlREDclose : "RED_END".toList = ['R', 'E', 'D', '_', 'E', 'N', 'D'] := rfl

/-! ### Character analysis of segment texts -/

theorem segsText_nil : segsText [] = [] := rfl

theorem segsText_cons (seg : Seg) (l : List Seg) :
    segsText (seg :: l) = seg.text ++ segsText l := by
  simp [segsText]

theorem segsRender_cons (seg : Seg) (l : List Seg) :
    segsRender (seg :: l) = seg.render ++ segsRender l := by
  simp [segsRender]

theorem segsText_chars (l : List Seg) (h : ∀ seg ∈ l, cleanContent seg.content) :
    ∀ c ∈ segsText l, c ≠ '\\' ∧ c ≠ '_' := by
  induction l with
  | nil => simp [segsText]
  | cons seg rest ih =>
    intro c hc
    rw [segsText_cons, List.mem_append] at hc
    rcases hc with hc | hc
    · cases seg with
      | plain s =>
        have hs := h (Seg.plain s) (by simp) c hc
        exact ⟨hs.2.1, hs.2.2.1⟩
      | add s =>
        simp only [Seg.text, List.mem_append] at hc
        rcases hc with (hc | hc) | hc
        · exact (by decide : ∀ x ∈ "[ADD]".toList, x ≠ '\\' ∧ x ≠ '_') c hc
        · have hs := h (Seg.add s) (by simp) c hc
          exact ⟨hs.2.1, hs.2.2.1⟩
        · exact (by decide : ∀ x ∈ "[/ADD]".toList, x ≠ '\\' ∧ x ≠ '_') c hc
      | del s =>
        simp only [Seg.text, List.mem_append] at hc
        rcases hc with (hc | hc) | hc
        · exact (by decide : ∀ x ∈ "[DEL]".toList, x ≠ '\\' ∧ x ≠ '_') c hc
        · have hs := h (Seg.del s) (by simp) c hc
          exact ⟨hs.2.1, hs.2.2.1⟩
        · exact (by decide : ∀ x ∈ "[/DEL]".toList, x ≠ '\\' ∧ x ≠ '_') c hc
    · exact ih (fun s hs => h s (by simp [hs])) c hc

theorem segsRender_chars (l : List Seg) (h : ∀ seg ∈ l, cleanContent seg.content) :
    ∀ c ∈ segsRender l, c ≠ '_' := by
  induction l with
  | nil => simp [segsRender]
  | cons seg rest ih =>
    intro c hc
    rw [segsRender_cons, List.mem_append] at hc
    rcases hc with hc | hc
    · cases seg with
      | plain s => exact (h (Seg.plain s) (by simp) c hc).2.2.1
      | add s =>
        simp only [Seg.render, greenWrap, List.mem_append] at hc
        rcases hc with (hc | hc) | hc
        · exact (by decide : ∀ x ∈ greenStartCode, x ≠ '_') c hc
        · exact (h (Seg.add s) (by simp) c hc).2.2.1
        · exact (by decide : ∀ x ∈ resetCode, x ≠ '_') c hc
      | del s =>
        simp only [Seg.render, redWrap, List.mem_append] at hc
        rcases hc with (hc | hc) | hc
        · exact (by decide : ∀ x ∈ redStartCode, x ≠ '_') c hc
        · exact (h (Seg.del s) (by simp) c hc).2.2.1
        · exact (by decide : ∀ x ∈ resetCode, x ≠ '_') c hc
    · exact ih (fun s hs => h s (by simp [hs])) c hc


/-! ### The four replacement passes on segment texts -/

theorem addPass_del_pass (closeT : List Char) (w : List Char → List Char)
    (s t : List Char) (h : ∀ c ∈ s, c ≠ '[') :
    replaceTagged '[' ['A', 'D', 'D', ']'] closeT w
        (('[' :: 'D' :: 'E' :: 'L' :: ']' :: s) ++ ('[' :: '/' :: 'D' :: 'E' :: 'L' :: ']' :: t))
      = ('[' :: 'D' :: 'E' :: 'L' :: ']' :: s)
          ++ ('[' :: '/' :: 'D' :: 'E' :: 'L' :: ']'
              :: replaceTagged '[' ['A', 'D', 'D', ']'] closeT w t) := by
  simp only [List.cons_append]
  rw [replaceTagged_cons_cons_ne '[' 'A' ['D', 'D', ']'] closeT w '[' 'D' _ (Or.inr (by decide))]
  rw [replaceTagged_cons_ne '[' _ closeT w 'D' _ (by decide)]
  rw [replaceTagged_cons_ne '[' _ closeT w 'E' _ (by decide)]
  rw [replaceTagged_cons_ne '[' _ closeT w 'L' _ (by decide)]
  rw [replaceTagged_cons_ne '[' _ closeT w ']' _ (by decide)]
  rw [replaceTagged_append_cleanChars '[' _ closeT w s _ h]
  rw [replaceTagged_cons_cons_ne '[' 'A' ['D', 'D', ']'] closeT w '[' '/' _ (Or.inr (by decide))]
  rw [replaceTagged_cons_ne '[' _ closeT w '/' _ (by decide)]
  rw [replaceTagged_cons_ne '[' _ closeT w 'D' _ (by decide)]
  rw [replaceTagged_cons_ne '[' _ closeT w 'E' _ (by decide)]
  rw [replaceTagged_cons_ne '[' _ closeT w 'L' _ (by decide)]
  rw [replaceTagged_cons_ne '[' _ closeT w ']' _ (by decide)]

theorem addPass_segsText (l : List Seg) (h : ∀ seg ∈ l, cleanContent seg.content) :
    replaceTagged '[' ['A', 'D', 'D', ']'] ['[', '/', 'A', 'D', 'D', ']'] greenWrap (segsText l)
      = (l.map Seg.afterAdd).flatten := by
  induction l with
  | nil => rfl
  | cons seg rest ih =>
    have hrest : ∀ s ∈ rest, cleanContent s.content :=
      fun s hs => h s (List.mem_cons_of_mem _ hs)
    rw [segsText_cons, List.map_cons, List.flatten_cons]
    cases seg with
    | plain s =>
      have hseg := h (Seg.plain s) (by simp)
      simp only [Seg.text, Seg.afterAdd]
      rw [replaceTagged_append_cleanChars '[' _ _ greenWrap s _ (fun c hc => (hseg c hc).1)]
      rw [ih hrest]
    | add s =>
      have hseg := h (Seg.add s) (by simp)
      simp only [Seg.text, Seg.afterAdd, tlADDopen, tlADDclose]
      rw [replaceTagged_resolve '[' ['A', 'D', 'D', ']'] '[' ['/', 'A', 'D', 'D', ']'] greenWrap s _
        (fun c hc => ⟨(hseg c hc).1, (hseg c hc).2.2.2⟩)]
      rw [ih hrest]
    | del s =>
      have hseg := h (Seg.del s) (by simp)
      simp only [Seg.text, Seg.afterAdd, tlDELopen, tlDELclose]
      have hshape : (('[' :: 'D' :: 'E' :: 'L' :: ']' :: []) ++ s
            ++ ('[' :: '/' :: 'D' :: 'E' :: 'L' :: ']' :: []) ++ segsText rest : List Char)
          = ('[' :: 'D' :: 'E' :: 'L' :: ']' :: s)
              ++ ('[' :: '/' :: 'D' :: 'E' :: 'L' :: ']' :: segsText rest) := by
        simp [List.append_assoc]
      rw [hshape]
      rw [addPass_del_pass _ greenWrap s _ (fun c hc => (hseg c hc).1)]
      rw [ih hrest]
      simp [List.append_assoc]

theorem delPass_greenWrap_pass (closeT : List Char) (w : List Char → List Char)
    (s t : List Char) (h : ∀ c ∈ s, c ≠ '[') :
    replaceTagged '[' ['D', 'E', 'L', ']'] closeT w (greenWrap s ++ t)
      = greenWrap s ++ replaceTagged '[' ['D', 'E', 'L', ']'] closeT w t := by
  have hshape : greenWrap s ++ t
      = escChar :: '[' :: '3' :: '2' :: ';' :: '1' :: 'm'
          :: (s ++ (escChar :: '[' :: '0' :: 'm' :: t)) := by
    simp [greenWrap, greenStartCode, resetCode, List.append_assoc]
  rw [hshape]
  rw [replaceTagged_cons_ne '[' _ closeT w escChar _ (by decide)]
  rw [replaceTagged_cons_cons_ne '[' 'D' ['E', 'L', ']'] closeT w '[' '3' _ (Or.inr (by decide))]
  rw [replaceTagged_cons_ne '[' _ closeT w '3' _ (by decide)]
  rw [replaceTagged_cons_ne '[' _ closeT w '2' _ (by decide)]
  rw [replaceTagged_cons_ne '[' _ closeT w ';' _ (by decide)]
  rw [replaceTagged_cons_ne '[' _ closeT w '1' _ (by decide)]
  rw [replaceTagged_cons_ne '[' _ closeT w 'm' _ (by decide)]
  rw [replaceTagged_append_cleanChars '[' _ closeT w s _ h]
  rw [replaceTagged_cons_ne '[' _ closeT w escChar _ (by decide)]
  rw [replaceTagged_cons_cons_ne '[' 'D' ['E', 'L', ']'] closeT w '[' '0' _ (Or.inr (by decide))]
  rw [replaceTagged_cons_ne '[' _ closeT w '0' _ (by decide)]
  rw [replaceTagged_cons_ne '[' _ closeT w 'm' _ (by decide)]
  simp [greenWrap, greenStartCode, resetCode, List.append_assoc]

theorem delPass_afterAdd (l : List Seg) (h : ∀ seg ∈ l, cleanContent seg.content) :
    replaceTagged '[' ['D', 'E', 'L', ']'] ['[', '/', 'D', 'E', 'L', ']'] redWrap
        ((l.map Seg.afterAdd).flatten)
      = segsRender l := by
  induction l with
  | nil => rfl
  | cons seg rest ih =>
    have hrest : ∀ s ∈ rest, cleanContent s.content :=
      fun s hs => h s (List.mem_cons_of_mem _ hs)
    rw [List.map_cons, List.flatten_cons, segsRender_cons]
    cases seg with
    | plain s =>
      have hseg := h (Seg.plain s) (by simp)
      simp only [Seg.afterAdd, Seg.render]
      rw [replaceTagged_append_cleanChars '[' _ _ redWrap s _ (fun c hc => (hseg c hc).1)]
      rw [ih hrest]
    | add s =>
      have hseg := h (Seg.add s) (by simp)
      simp only [Seg.afterAdd, Seg.render]
      rw [delPass_greenWrap_pass _ redWrap s _ (fun c hc => (hseg c hc).1)]
      rw [ih hrest]
    | del s =>
      have hseg := h (Seg.del s) (by simp)
      simp only [Seg.afterAdd, Seg.render, tlDELopen, tlDELclose]
      rw [replaceTagged_resolve '[' ['D', 'E', 'L', ']'] '[' ['/', 'D', 'E', 'L', ']'] redWrap s _
        (fun c hc => ⟨(hseg c hc).1, (hseg c hc).2.2.2⟩)]
      rw [ih hrest]

/-- The whole of `convertEscapeSequences` on a clean segment text: every
bracket-tag span is resolved to its colorized form. -/
theorem convert_segsText (l : List Seg) (h : ∀ seg ∈ l, cleanContent seg.content) :
    convertEscapeSequences (segsText l) = segsRender l := by
  unfold convertEscapeSequences
  simp only [tl033, tlADDos, tlADDclose, tlDELos, tlDELclose, tlGREENos, tlGREENclose,
    tlREDos, tlREDclose]
  rw [replaceAll_id_of_cleanChars '\\' _ _ _ (fun c hc => (segsText_chars l h c hc).1)]
  rw [addPass_segsText l h]
  rw [delPass_afterAdd l h]
  rw [replaceTagged_id_of_cleanChars 'G' ['R', 'E', 'E', 'N', '_', 'S', 'T', 'A', 'R', 'T'] _ greenWrap
    '_' _ (by decide) (segsRender_chars l h)]
  rw [replaceTagged_id_of_cleanChars 'R' ['E', 'D', '_', 'S', 'T', 'A', 'R', 'T'] _ redWrap
    '_' _ (by decide) (segsRender_chars l h)]


/-! ### Unmatched opening markers -/

theorem tlESCGREEN : "\\033[32;1m".toList
    = ['\\', '0', '3', '3', '[', '3', '2', ';', '1', 'm'] := rfl

theorem tlESC32M : "[32;1m".toList = ['[', '3', '2', ';', '1', 'm'] := rfl

theorem markerSuffixTable_eq :
    markerSuffixTable
      = "\\".toList :: "\\0".toList :: "\\03".toList :: "\\033".toList :: "\\033[".toList
        :: "\\033[3".toList :: "\\033[32".toList :: "\\033[32;".toList :: "\\033[32;1".toList
        :: "\\033[31".toList :: "\\033[31;".toList :: "\\033[31;1".toList
        :: "[".toList :: "[A".toList :: "[AD".toList :: "[ADD".toList
        :: "[D".toList :: "[DE".toList :: "[DEL".toList
        :: "G".toList :: "GR".toList :: "GREEN_START".toList
        :: "R".toList :: "RE".toList :: "RED_START".toList :: [] := rfl

theorem replaceTagged_cons_no_close (o : Char) (os closeT : List Char)
    (w : List Char → List Char) (c : Char) (rest : List Char)
    (hfc : findClose closeT ((c :: rest).drop (o :: os).length) = none) :
    replaceTagged o os closeT w (c :: rest) = c :: replaceTagged o os closeT w rest := by
  rw [replaceTagged_cons]
  by_cases hp : (o :: os) <+: (c :: rest)
  · rw [if_pos hp, hfc]
  · rw [if_neg hp]

/-- `convertEscapeSequences` leaves an unmatched `[ADD]` open tag (no
`[/ADD]` anywhere after it) fully untouched when the surrounding text is
marker-free. -/
theorem convert_unmatched_add (pre post : List Char)
    (hpre : cleanContent pre) (hpost : cleanContent post) :
    convertEscapeSequences (pre ++ "[ADD]".toList ++ post)
      = pre ++ "[ADD]".toList ++ post := by
  have hcleanA : ∀ c ∈ ('A' :: 'D' :: 'D' :: ']' :: post), c ≠ '[' := by
    intro c hc
    simp only [List.mem_cons] at hc
    rcases hc with rfl | rfl | rfl | rfl | hc
    · decide
    · decide
    · decide
    · decide
    · exact (hpost c hc).1
  have hbs : ∀ c ∈ pre ++ ('[' :: 'A' :: 'D' :: 'D' :: ']' :: post), c ≠ '\\' := by
    intro c hc
    rcases List.mem_append.mp hc with hc | hc
    · exact (hpre c hc).2.1
    · simp only [List.mem_cons] at hc
      rcases hc with rfl | rfl | rfl | rfl | rfl | hc
      · decide
      · decide
      · decide
      · decide
      · decide
      · exact (hpost c hc).2.1
  have hund : ∀ c ∈ pre ++ ('[' :: 'A' :: 'D' :: 'D' :: ']' :: post), c ≠ '_' := by
    intro c hc
    rcases List.mem_append.mp hc with hc | hc
    · exact (hpre c hc).2.2.1
    · simp only [List.mem_cons] at hc
      rcases hc with rfl | rfl | rfl | rfl | rfl | hc
      · decide
      · decide
      · decide
      · decide
      · decide
      · exact (hpost c hc).2.2.1
  unfold convertEscapeSequences
  simp only [tl033, tlADDos, tlADDclose, tlDELos, tlDELclose, tlGREENos, tlGREENclose,
    tlREDos, tlREDclose, tlADDopen, List.append_assoc, List.cons_append, List.nil_append]
  rw [replaceAll_id_of_cleanChars '\\' ['0', '3', '3'] [escChar] _ hbs]
  rw [replaceTagged_append_cleanChars '[' ['A', 'D', 'D', ']'] ['[', '/', 'A', 'D', 'D', ']']
    greenWrap pre _ (fun c hc => (hpre c hc).1)]
  rw [replaceTagged_cons_no_close '[' ['A', 'D', 'D', ']'] ['[', '/', 'A', 'D', 'D', ']']
    greenWrap '[' ('A' :: 'D' :: 'D' :: ']' :: post)
    (findClose_none_of_cleanChars '[' ['/', 'A', 'D', 'D', ']'] post (fun c hc => (hpost c hc).1))]
  rw [replaceTagged_id_of_cleanChars '[' ['A', 'D', 'D', ']'] ['[', '/', 'A', 'D', 'D', ']']
    greenWrap '[' ('A' :: 'D' :: 'D' :: ']' :: post) (by decide) hcleanA]
  rw [replaceTagged_append_cleanChars '[' ['D', 'E', 'L', ']'] ['[', '/', 'D', 'E', 'L', ']']
    redWrap pre _ (fun c hc => (hpre c hc).1)]
  rw [replaceTagged_cons_cons_ne '[' 'D' ['E', 'L', ']'] ['[', '/', 'D', 'E', 'L', ']']
    redWrap '[' 'A' _ (Or.inr (by decide))]
  rw [replaceTagged_id_of_cleanChars '[' ['D', 'E', 'L', ']'] ['[', '/', 'D', 'E', 'L', ']']
    redWrap '[' ('A' :: 'D' :: 'D' :: ']' :: post) (by decide) hcleanA]
  rw [replaceTagged_id_of_cleanChars 'G' ['R', 'E', 'E', 'N', '_', 'S', 'T', 'A', 'R', 'T'] _
    greenWrap '_' _ (by decide) hund]
  rw [replaceTagged_id_of_cleanChars 'R' ['E', 'D', '_', 'S', 'T', 'A', 'R', 'T'] _
    redWrap '_' _ (by decide) hund]

/-- `convertEscapeSequences` on an unmatched escape-scheme start marker:
the literal `\033` is unconditionally rewritten to the ESC byte even
though no reset marker follows. -/
theorem convert_unmatched_esc (pre post : List Char)
    (hpre : cleanContent pre) (hpost : cleanContent post) :
    convertEscapeSequences (pre ++ "\\033[32;1m".toList ++ post)
      = pre ++ (escChar :: '[' :: '3' :: '2' :: ';' :: '1' :: 'm' :: post) := by
  have h3 : ∀ c ∈ ('3' :: '2' :: ';' :: '1' :: 'm' :: post), c ≠ '[' := by
    intro c hc
    simp only [List.mem_cons] at hc
    rcases hc with rfl | rfl | rfl | rfl | rfl | hc
    · decide
    · decide
    · decide
    · decide
    · decide
    · exact (hpost c hc).1
  have hnb : ∀ c ∈ ('[' :: '3' :: '2' :: ';' :: '1' :: 'm' :: post), c ≠ '\\' := by
    intro c hc
    simp only [List.mem_cons] at hc
    rcases hc with rfl | rfl | rfl | rfl | rfl | rfl | hc
    · decide
    · decide
    · decide
    · decide
    · decide
    · decide
    · exact (hpost c hc).2.1
  have hund : ∀ c ∈ pre ++ (escChar :: '[' :: '3' :: '2' :: ';' :: '1' :: 'm' :: post),
      c ≠ '_' := by
    intro c hc
    rcases List.mem_append.mp hc with hc | hc
    · exact (hpre c hc).2.2.1
    · simp only [List.mem_cons] at hc
      rcases hc with rfl | rfl | rfl | rfl | rfl | rfl | rfl | hc
      · decide
      · decide
      · decide
      · decide
      · decide
      · decide
      · decide
      · exact (hpost c hc).2.2.1
  unfold convertEscapeSequences
  simp only [tl033, tlADDos, tlADDclose, tlDELos, tlDELclose, tlGREENos, tlGREENclose,
    tlREDos, tlREDclose, tlESCGREEN, List.append_assoc, List.cons_append, List.nil_append]
  rw [replaceAll_append_cleanChars '\\' ['0', '3', '3'] [escChar] pre _
    (fun c hc => (hpre c hc).2.1)]
  have hres : replaceAll '\\' ['0', '3', '3'] [escChar]
        ('\\' :: '0' :: '3' :: '3' :: '[' :: '3' :: '2' :: ';' :: '1' :: 'm' :: post)
      = escChar :: replaceAll '\\' ['0', '3', '3'] [escChar]
          ('[' :: '3' :: '2' :: ';' :: '1' :: 'm' :: post) :=
    replaceAll_resolve '\\' ['0', '3', '3'] [escChar]
      ('[' :: '3' :: '2' :: ';' :: '1' :: 'm' :: post)
  rw [hres]
  rw [replaceAll_id_of_cleanChars '\\' ['0', '3', '3'] [escChar] _ hnb]
  rw [replaceTagged_append_cleanChars '[' ['A', 'D', 'D', ']'] ['[', '/', 'A', 'D', 'D', ']']
    greenWrap pre _ (fun c hc => (hpre c hc).1)]
  rw [replaceTagged_cons_ne '[' ['A', 'D', 'D', ']'] ['[', '/', 'A', 'D', 'D', ']']
    greenWrap escChar _ (by decide)]
  rw [replaceTagged_cons_cons_ne '[' 'A' ['D', 'D', ']'] ['[', '/', 'A', 'D', 'D', ']']
    greenWrap '[' '3' _ (Or.inr (by decide))]
  rw [replaceTagged_id_of_cleanChars '[' ['A', 'D', 'D', ']'] ['[', '/', 'A', 'D', 'D', ']']
    greenWrap '[' ('3' :: '2' :: ';' :: '1' :: 'm' :: post) (by decide) h3]
  rw [replaceTagged_append_cleanChars '[' ['D', 'E', 'L', ']'] ['[', '/', 'D', 'E', 'L', ']']
    redWrap pre _ (fun c hc => (hpre c hc).1)]
  rw [replaceTagged_cons_ne '[' ['D', 'E', 'L', ']'] ['[', '/', 'D', 'E', 'L', ']']
    redWrap escChar _ (by decide)]
  rw [replaceTagged_cons_cons_ne '[' 'D' ['E', 'L', ']'] ['[', '/', 'D', 'E', 'L', ']']
    redWrap '[' '3' _ (Or.inr (by decide))]
  rw [replaceTagged_id_of_cleanChars '[' ['D', 'E', 'L', ']'] ['[', '/', 'D', 'E', 'L', ']']
    redWrap '[' ('3' :: '2' :: ';' :: '1' :: 'm' :: post) (by decide) h3]
  rw [replaceTagged_id_of_cleanChars 'G' ['R', 'E', 'E', 'N', '_', 'S', 'T', 'A', 'R', 'T'] _
    greenWrap '_' _ (by decide) hund]
  rw [replaceTagged_id_of_cleanChars 'R' ['E', 'D', '_', 'S', 'T', 'A', 'R', 'T'] _
    redWrap '_' _ (by decide) hund]


theorem processChunk_eq (st : RenderState) (chunk : List Char) :
    processChunk st chunk =
      if st.lastProcessed.length
          < (convertEscapeSequences (cleanIncompleteEscapeSequences (st.buffer ++ chunk))).length
      then ⟨st.buffer ++ chunk,
            convertEscapeSequences (cleanIncompleteEscapeSequences (st.buffer ++ chunk)),
            st.out ++ (convertEscapeSequences
              (cleanIncompleteEscapeSequences (st.buffer ++ chunk))).drop
                st.lastProcessed.length⟩
      else ⟨st.buffer ++ chunk, st.lastProcessed, st.out⟩ := rfl

theorem runStream_single_out (t u : List Char)
    (hces : cleanIncompleteEscapeSequences t = t)
    (hconv : convertEscapeSequences t = u) :
    (runStream [t]).out = u := by
  unfold runStream
  rw [List.foldl_cons, List.foldl_nil, processChunk_eq]
  have hb : initialRenderState.buffer = [] := rfl
  have hlp : initialRenderState.lastProcessed = [] := rfl
  have ho : initialRenderState.out = [] := rfl
  rw [hb, hlp, ho, List.nil_append, hces, hconv]
  simp only [List.length_nil, List.drop_zero, List.nil_append]
  by_cases h0 : 0 < u.length
  · rw [if_pos h0]
  · rw [if_neg h0]
    have hu : u = [] := by
      cases u with
      | nil => rfl
      | cons x xs => simp at h0
    simp [hu]



/-! ### Stream decoder step lemmas -/

theorem claudeLines_data_step (decode : List Char → Option StreamEvent)
    (payload : List Char) (rest : List (List Char)) (et : List Char) :
    handleClaudeStreamingLines decode (("data: ".toList ++ payload) :: rest) et =
      if et = "ping".toList then handleClaudeStreamingLines decode rest et
      else
        match decode payload with
        | none => ([], true)
        | some ev =>
          if et = "content_block_delta".toList then
            match ev.delta with
            | some d =>
              if d.dtype = "text_delta".toList ∧ d.text ≠ [] then
                let r := handleClaudeStreamingLines decode rest et
                (d.text :: r.1, r.2)
              else handleClaudeStreamingLines decode rest et
            | none => handleClaudeStreamingLines decode rest et
          else if et = "message_stop".toList then ([], false)
          else handleClaudeStreamingLines decode rest et := by
  have hne : ¬("data: ".toList ++ payload = [] ∨ (":".toList) <+: ("data: ".toList ++ payload)) := by
    rintro (h | h)
    · have h' : ('d' :: 'a' :: 't' :: 'a' :: ':' :: ' ' :: payload) = ([] : List Char) := h
      simp at h'
    · have h' : (':' :: ([] : List Char)) <+: ('d' :: 'a' :: 't' :: 'a' :: ':' :: ' ' :: payload) := h
      exact absurd (List.cons_prefix_cons.mp h').1 (by decide)
  have hev : ¬(("event: ".toList) <+: ("data: ".toList ++ payload)) := by
    intro h
    have h' : ('e' :: "vent: ".toList) <+: ('d' :: 'a' :: 't' :: 'a' :: ':' :: ' ' :: payload) := h
    exact absurd (List.cons_prefix_cons.mp h').1 (by decide)
  have hdata : ("data: ".toList) <+: ("data: ".toList ++ payload) := List.prefix_append _ _
  have hdrop : ("data: ".toList ++ payload).drop 6 = payload := rfl
  simp only [handleClaudeStreamingLines]
  rw [if_neg hne, if_neg hev, if_pos hdata, hdrop]

theorem azureLines_data_step (decode : List Char → Option (List AzureOpenAIStreamChoice))
    (payload : List Char) (rest : List (List Char)) :
    handleAzureOpenAIStreamingLines decode (("data: ".toList ++ payload) :: rest) =
      if payload = "[DONE]".toList then ([], false)
      else
        match decode payload with
        | none => ([], true)
        | some choices =>
          let c := processAzureChoices choices
          if c.2 then (c.1, false)
          else
            let r := handleAzureOpenAIStreamingLines decode rest
            (c.1 ++ r.1, r.2) := by
  have hne : ¬("data: ".toList ++ payload = [] ∨ (":".toList) <+: ("data: ".toList ++ payload)) := by
    rintro (h | h)
    · have h' : ('d' :: 'a' :: 't' :: 'a' :: ':' :: ' ' :: payload) = ([] : List Char) := h
      simp at h'
    · have h' : (':' :: ([] : List Char)) <+: ('d' :: 'a' :: 't' :: 'a' :: ':' :: ' ' :: payload) := h
      exact absurd (List.cons_prefix_cons.mp h').1 (by decide)
  have hdata : ("data: ".toList) <+: ("data: ".toList ++ payload) := List.prefix_append _ _
  have hdrop : ("data: ".toList ++ payload).drop 6 = payload := rfl
  simp only [handleAzureOpenAIStreamingLines]
  rw [if_neg hne, if_pos hdata, hdrop]

theorem processAzureChoices_done (choices : List AzureOpenAIStreamChoice)
    (h : ∃ ch ∈ choices, ch.finishReason ≠ []) :
    (processAzureChoices choices).2 = true := by
  induction choices with
  | nil => simp at h
  | cons ch rest ih =>
    simp only [processAzureChoices]
    by_cases hf : ch.finishReason ≠ []
    · rw [if_pos hf]
    · rw [if_neg hf]
      obtain ⟨x, hx, hxf⟩ := h
      rcases List.mem_cons.mp hx with rfl | hx
      · exact absurd hxf hf
      · exact ih ⟨x, hx, hxf⟩


/-! ## Claim theorems -/

/-- C1: the streaming renderer is not chunking-invariant.  Splitting the
well-formed text `[ADD]hi[/ADD]` into the chunks `[ADD]hi` and `[/ADD]`
makes the renderer flush the open tag literally and then write the inner
text `hi` a second time once the span resolves, so the concatenation of
the written suffixes differs from the single-chunk output: the claim's
byte-identity fails, with both a duplicated `hi` and literal tag bytes in
the streamed output. -/
theorem c1_chunk_split_changes_output :
    (runStream ["[ADD]hi".toList, "[/ADD]".toList]).out
        = "[ADD]hi".toList ++ "hi".toList ++ resetCode
      ∧ (runStream ["[ADD]hi[/ADD]".toList]).out = greenWrap "hi".toList
      ∧ (runStream ["[ADD]hi".toList, "[/ADD]".toList]).out
          ≠ (runStream ["[ADD]hi[/ADD]".toList]).out :=
  ⟨by decide, by decide, by decide⟩

/-- C2 counterexample: `[/A` is a proper prefix of the recognized token
`[/ADD]`, yet a text ending in it is returned unchanged by
`cleanIncompleteEscapeSequences` — the trimming table does not cover the
prefixes of the closing bracket tags. -/
theorem c2_closing_tag_prefix_not_trimmed :
    ("[/A".toList <+: "[/ADD]".toList)
      ∧ "[/A".toList ≠ "[/ADD]".toList
      ∧ cleanIncompleteEscapeSequences "x[/A".toList = "x[/A".toList :=
  ⟨by decide, by decide, by decide⟩

/-- C2 (amended): for every proper non-empty prefix `p` of one of the
opening tokens `[ADD]`, `[DEL]`, `\033[32;1m`, `\033[31;1m`, a text
ending in `p` has at least that trailing prefix removed by
`cleanIncompleteEscapeSequences` (the result is a prefix of the text
shortened by at least `p.length` characters); prefixes of the closing
forms `[/ADD]`, `[/DEL]`, of the reset sequence `\033[0m` past `\033[`,
and of the legacy `GREEN_START`/`RED_START` markers past two characters
are not covered. -/
theorem c2_open_token_prefixes_trimmed :
    ∀ (s p : List Char), p ∈ coveredMarkerPrefixes → p <:+ s →
      cleanIncompleteEscapeSequences s <+: s
        ∧ (cleanIncompleteEscapeSequences s).length + p.length ≤ s.length := by
  intro s p hp hsuf
  unfold cleanIncompleteEscapeSequences
  cases hfind : markerSuffixTable.find? (fun pat => decide (pat <:+ s)) with
  | none =>
    exfalso
    have hsub : ∀ q ∈ coveredMarkerPrefixes, q ∈ markerSuffixTable := by decide
    have hnp := List.find?_eq_none.mp hfind p (hsub p hp)
    simp at hnp
    exact hnp hsuf
  | some pat =>
    have hpat : pat <:+ s := by
      have := List.find?_some hfind
      simpa using this
    have hpatmem := List.mem_of_find?_eq_some hfind
    have hle : p.length ≤ pat.length := by
      rcases List.suffix_or_suffix_of_suffix hpat hsuf with h1 | h1
      · have key : ∀ q ∈ markerSuffixTable, ∀ r ∈ coveredMarkerPrefixes, q <:+ r →
            r.length ≤ q.length ∨ (q = "[".toList ∧ r = "\\033[".toList) := by decide
        rcases key pat hpatmem p hp h1 with hk | ⟨rfl, rfl⟩
        · exact hk
        · -- `[` cannot be the first matching entry when the text ends in `\033[`,
          -- because the `\033[` entry is checked earlier and also matches.
          exfalso
          have h5 : "\\033[".toList <:+ s := hsuf
          have hdet : ∀ q : List Char, q.length ≤ 5 → ((q <:+ s) ↔ (q <:+ "\\033[".toList)) := by
            intro q hq
            constructor
            · intro hqs
              rcases List.suffix_or_suffix_of_suffix hqs h5 with h2 | h2
              · exact h2
              · have hlen : q.length = 5 := Nat.le_antisymm hq h2.length_le
                have : ("\\033[".toList : List Char) = q :=
                  h2.eq_of_length (by rw [hlen]; rfl)
                rw [← this]
              
            · intro hqw
              exact hqw.trans h5
          have hfind2 : markerSuffixTable.find? (fun pat => decide (pat <:+ s))
              = some ("\\033[".toList) := by
            rw [markerSuffixTable_eq]
            rw [List.find?_cons_of_neg _ (by
              simp only [decide_eq_true_eq]
              intro hx
              exact (by decide : ¬("\\".toList <:+ "\\033[".toList))
                ((hdet _ (by decide)).mp hx))]
            rw [List.find?_cons_of_neg _ (by
              simp only [decide_eq_true_eq]
              intro hx
              exact (by decide : ¬("\\0".toList <:+ "\\033[".toList))
                ((hdet _ (by decide)).mp hx))]
            rw [List.find?_cons_of_neg _ (by
              simp only [decide_eq_true_eq]
              intro hx
              exact (by decide : ¬("\\03".toList <:+ "\\033[".toList))
                ((hdet _ (by decide)).mp hx))]
            rw [List.find?_cons_of_neg _ (by
              simp only [decide_eq_true_eq]
              intro hx
              exact (by decide : ¬("\\033".toList <:+ "\\033[".toList))
                ((hdet _ (by decide)).mp hx))]
            rw [List.find?_cons_of_pos _ (by
              simp only [decide_eq_true_eq]
              exact h5)]
          rw [hfind2] at hfind
          have : ("\\033[".toList : List Char) = "[".toList := Option.some.inj hfind
          exact absurd this (by decide)
      · exact h1.length_le
    have hplen : pat.length ≤ s.length := hpat.length_le
    constructor
    · exact ⟨s.drop (s.length - pat.length), List.take_append_drop _ _⟩
    · have hlen : (s.take (s.length - pat.length)).length = s.length - pat.length := by
        rw [List.length_take]
        exact min_eq_left (Nat.sub_le _ _)
      rw [hlen]
      omega

/-- Witness for C2 (amended) at the concrete text `xy[A` and the covered
prefix `[A`. -/
theorem c2_open_token_prefixes_trimmed_witness :
    cleanIncompleteEscapeSequences "xy[A".toList <+: "xy[A".toList
      ∧ (cleanIncompleteEscapeSequences "xy[A".toList).length + ("[A".toList).length
          ≤ ("xy[A".toList).length :=
  c2_open_token_prefixes_trimmed "xy[A".toList "[A".toList (by decide) (by decide)

/-- C3 counterexample: both invariant halves beyond monotonicity fail.
With the chunks `GREEN_STARThiGREEN_EN` and `D`, the flushed prefix ends
at 21 characters while the fully markup-resolved text has only 13, so the
flushed length exceeds the resolved length; and with the chunks `[ADD]hi`
and `[/ADD]` the renderer writes the confirmed character `h` twice even
though it occurs once in the stream and once in the resolved output. -/
theorem c3_flushed_exceeds_and_duplicates :
    ((runStream ["GREEN_STARThiGREEN_EN".toList, "D".toList]).lastProcessed.length = 21
      ∧ (convertEscapeSequences (cleanIncompleteEscapeSequences
          ("GREEN_STARThiGREEN_EN".toList ++ "D".toList))).length = 13)
    ∧ ((runStream ["[ADD]hi".toList, "[/ADD]".toList]).out.count 'h' = 2
      ∧ (convertEscapeSequences (cleanIncompleteEscapeSequences
          ("[ADD]hi".toList ++ "[/ADD]".toList))).count 'h' = 1
      ∧ ("[ADD]hi".toList ++ "[/ADD]".toList).count 'h' = 1) :=
  ⟨⟨by decide, by decide⟩, by decide, by decide, by decide⟩

/-- C3 (amended): across every chunk sequence, from any renderer state,
the length of `lastProcessed` (the flushed prefix) is monotonically
non-decreasing. -/
theorem c3_flushed_length_monotone :
    ∀ (chunks : List (List Char)) (st : RenderState),
      st.lastProcessed.length ≤ ((chunks.foldl processChunk st).lastProcessed).length := by
  intro chunks
  induction chunks with
  | nil => intro st; exact Nat.le_refl _
  | cons c rest ih =>
    intro st
    rw [List.foldl_cons]
    refine Nat.le_trans ?_ (ih (processChunk st c))
    rw [processChunk_eq]
    by_cases h : st.lastProcessed.length
        < (convertEscapeSequences (cleanIncompleteEscapeSequences (st.buffer ++ c))).length
    · rw [if_pos h]
      exact Nat.le_of_lt h
    · rw [if_neg h]

/-- C4 counterexample: the single chunk `[ADD]x[/ADD] R` contains a
well-formed `[ADD]` span, yet the final output is not the text with the
span colorized — the trailing `R` is withheld as a potential `RED_START`
prefix and never flushed, so the output is truncated. -/
theorem c4_trailing_marker_char_truncated :
    (runStream ["[ADD]x[/ADD] R".toList]).out = greenWrap "x".toList ++ " ".toList
      ∧ (runStream ["[ADD]x[/ADD] R".toList]).out
          ≠ greenWrap "x".toList ++ " R".toList :=
  ⟨by decide, by decide⟩

/-- C4 (amended): for every text assembled from well-formed `[ADD]x[/ADD]`
and `[DEL]y[/DEL]` spans and plain runs whose contents are marker-free
(no bracket, backslash, underscore or newline characters), and which the
suffix trimmer leaves unchanged (it does not end in a marker-prefix
character), single-chunk delivery renders exactly the text with every
`x` wrapped in green+bold and every `y` wrapped in red+bold, reset after,
and no literal tags remaining. -/
theorem c4_single_chunk_render :
    ∀ (l : List Seg),
      (∀ seg ∈ l, cleanContent seg.content) →
      cleanIncompleteEscapeSequences (segsText l) = segsText l →
      (runStream [segsText l]).out = segsRender l := by
  intro l h hces
  exact runStream_single_out _ _ hces (convert_segsText l h)

/-- Witness for C4 (amended) at a text with one `[ADD]` span, one plain
run and one `[DEL]` span. -/
theorem c4_single_chunk_render_witness :
    (runStream [segsText
        [Seg.add "ok".toList, Seg.plain " and ".toList, Seg.del "bad".toList]]).out
      = segsRender [Seg.add "ok".toList, Seg.plain " and ".toList, Seg.del "bad".toList] :=
  c4_single_chunk_render _ (by decide) (by decide)

/-- C5 counterexample: the unmatched escape-scheme opening marker
`\033[32;1m` (claimed to be emitted literally and unconverted when no
closing marker ever arrives) is in fact converted: the renderer rewrites
its `\033` prefix into the real ESC control byte. -/
theorem c5_escape_open_marker_converted :
    (runStream ["A\\033[32;1mB".toList]).out
        = 'A' :: escChar :: "[32;1mB".toList
      ∧ (runStream ["A\\033[32;1mB".toList]).out ≠ "A\\033[32;1mB".toList :=
  ⟨by decide, by decide⟩

/-- C5 (amended): an unmatched opening marker of the bracket scheme
(`[ADD]` with no close by end-of-stream, in marker-free context text that
the suffix trimmer leaves unchanged) is emitted literally and
unconverted; an unmatched opening marker of the escape scheme is emitted
with its `\033` prefix converted to the ESC byte and the rest as-is,
rather than being dropped or resolved. -/
theorem c5_unmatched_open_markers :
    (∀ pre post : List Char, cleanContent pre → cleanContent post →
        cleanIncompleteEscapeSequences (pre ++ "[ADD]".toList ++ post)
          = pre ++ "[ADD]".toList ++ post →
        (runStream [pre ++ "[ADD]".toList ++ post]).out = pre ++ "[ADD]".toList ++ post)
    ∧ (∀ pre post : List Char, cleanContent pre → cleanContent post →
        cleanIncompleteEscapeSequences (pre ++ "\\033[32;1m".toList ++ post)
          = pre ++ "\\033[32;1m".toList ++ post →
        (runStream [pre ++ "\\033[32;1m".toList ++ post]).out
          = pre ++ (escChar :: "[32;1m".toList) ++ post) := by
  constructor
  · intro pre post hpre hpost hces
    exact runStream_single_out _ _ hces (convert_unmatched_add pre post hpre hpost)
  · intro pre post hpre hpost hces
    refine runStream_single_out _ _ hces ?_
    rw [convert_unmatched_esc pre post hpre hpost]
    simp [tlESC32M, List.append_assoc]

/-- Witness for C5 (amended) at concrete context text. -/
theorem c5_unmatched_open_markers_witness :
    (runStream ["x ".toList ++ "[ADD]".toList ++ " y".toList]).out
        = "x ".toList ++ "[ADD]".toList ++ " y".toList
      ∧ (runStream ["x ".toList ++ "\\033[32;1m".toList ++ " y".toList]).out
        = "x ".toList ++ (escChar :: "[32;1m".toList) ++ " y".toList :=
  ⟨c5_unmatched_open_markers.1 "x ".toList " y".toList (by decide) (by decide) (by decide),
   c5_unmatched_open_markers.2 "x ".toList " y".toList (by decide) (by decide) (by decide)⟩

/-- C6 counterexample: the Claude adapter returns only the first content
block's text, unstripped, not the stripped concatenation of all
text-typed blocks; the Azure adapter likewise returns the first choice's
content without stripping. -/
theorem c6_not_concatenated_not_stripped :
    handleClaudeNonStreamingResponse
        [⟨"text".toList, " a ".toList⟩, ⟨"text".toList, "b".toList⟩]
      = Except.ok " a ".toList
    ∧ specClaudeNonStreamingText
        [⟨"text".toList, " a ".toList⟩, ⟨"text".toList, "b".toList⟩] = "a b".toList
    ∧ " a ".toList ≠ "a b".toList
    ∧ handleAzureOpenAINonStreamingResponse [⟨⟨" x ".toList⟩⟩] = Except.ok " x ".toList
    ∧ specAzureNonStreamingText [⟨⟨" x ".toList⟩⟩] = "x".toList
    ∧ " x ".toList ≠ "x".toList :=
  ⟨by rfl, by decide, by decide, by rfl, by decide, by decide⟩

/-- C6 (amended): on a successfully decoded 200 response the Claude
adapter returns the text of the first content block provided that block
is text-typed (later blocks are ignored), and the Azure adapter returns
the first choice's message content; neither strips whitespace. -/
theorem c6_first_segment_unstripped :
    ∀ (b : ContentBlock) (bs : List ContentBlock)
      (ch : AzureOpenAIResponseChoice) (chs : List AzureOpenAIResponseChoice),
      b.type = "text".toList →
      handleClaudeNonStreamingResponse (b :: bs) = Except.ok b.text
        ∧ handleAzureOpenAINonStreamingResponse (ch :: chs)
            = Except.ok ch.message.content := by
  intro b bs ch chs hb
  constructor
  · simp only [handleClaudeNonStreamingResponse]
    rw [if_pos hb]
  · rfl

/-- Witness for C6 (amended) at concrete responses. -/
theorem c6_first_segment_unstripped_witness :
    handleClaudeNonStreamingResponse [⟨"text".toList, " hi ".toList⟩]
        = Except.ok " hi ".toList
      ∧ handleAzureOpenAINonStreamingResponse [⟨⟨" ok ".toList⟩⟩]
        = Except.ok " ok ".toList :=
  c6_first_segment_unstripped ⟨"text".toList, " hi ".toList⟩ []
    ⟨⟨" ok ".toList⟩⟩ [] (by rfl)

/-- C7: in the Claude stream decoder, a data line read under the `ping`
event type is skipped before JSON decoding — the decode function is never
consulted, whatever the payload — and a data line read under the
`message_stop` event type terminates the loop: the result is independent
of every line that follows, and no chunk is emitted from that point. -/
theorem c7_ping_skipped_and_stop_terminates :
    (∀ (decode : List Char → Option StreamEvent) (payload : List Char)
        (rest : List (List Char)),
      handleClaudeStreamingLines decode (("data: ".toList ++ payload) :: rest) "ping".toList
        = handleClaudeStreamingLines decode rest "ping".toList)
    ∧ (∀ (decode : List Char → Option StreamEvent) (payload : List Char)
        (rest rest' : List (List Char)),
      handleClaudeStreamingLines decode (("data: ".toList ++ payload) :: rest)
          "message_stop".toList
        = handleClaudeStreamingLines decode (("data: ".toList ++ payload) :: rest')
            "message_stop".toList
      ∧ (handleClaudeStreamingLines decode (("data: ".toList ++ payload) :: rest)
            "message_stop".toList).1 = []) := by
  constructor
  · intro decode payload rest
    exact (claudeLines_data_step decode payload rest "ping".toList).trans (if_pos rfl)
  · intro decode payload rest rest'
    rw [claudeLines_data_step, claudeLines_data_step]
    cases hdec : decode payload with
    | none => exact ⟨rfl, rfl⟩
    | some ev => exact ⟨rfl, rfl⟩

/-- C8: with an empty diff, `rootCmd.Run` prints "No differences found.",
performs zero provider invocations, and exits with code 0, for either
provider outcome. -/
theorem c8_empty_diff_short_circuit :
    ∀ providerFails : Bool,
      (runWithDiffOutput [] providerFails).message = "No differences found.".toList
        ∧ (runWithDiffOutput [] providerFails).providerCalls = 0
        ∧ (runWithDiffOutput [] providerFails).exitCode = 0 := by
  intro providerFails
  exact ⟨rfl, rfl, rfl⟩

/-- C9: in the Azure streaming handler, as soon as a decoded chunk
contains a choice with a non-empty finish reason, the handler closes the
channel and returns: the result is independent of all subsequent lines
(`[DONE]` included, which is therefore never awaited) and the loop does
not end on the error path. -/
theorem c9_finish_reason_terminates :
    ∀ (decode : List Char → Option (List AzureOpenAIStreamChoice))
      (payload : List Char) (choices : List AzureOpenAIStreamChoice)
      (rest rest' : List (List Char)),
      decode payload = some choices →
      (∃ ch ∈ choices, ch.finishReason ≠ []) →
      handleAzureOpenAIStreamingLines decode (("data: ".toList ++ payload) :: rest)
          = handleAzureOpenAIStreamingLines decode (("data: ".toList ++ payload) :: rest')
        ∧ (handleAzureOpenAIStreamingLines decode
            (("data: ".toList ++ payload) :: rest)).2 = false := by
  intro decode payload choices rest rest' hdec hfin
  rw [azureLines_data_step, azureLines_data_step]
  by_cases hdone : payload = "[DONE]".toList
  · rw [if_pos hdone, if_pos hdone]
    exact ⟨rfl, rfl⟩
  · rw [if_neg hdone, if_neg hdone, hdec]
    have hd := processAzureChoices_done choices hfin
    show ((if (processAzureChoices choices).2 = true then ((processAzureChoices choices).1, false)
          else ((processAzureChoices choices).1 ++ (handleAzureOpenAIStreamingLines decode rest).1,
                (handleAzureOpenAIStreamingLines decode rest).2))
        = (if (processAzureChoices choices).2 = true then ((processAzureChoices choices).1, false)
          else ((processAzureChoices choices).1 ++ (handleAzureOpenAIStreamingLines decode rest').1,
                (handleAzureOpenAIStreamingLines decode rest').2)))
      ∧ (if (processAzureChoices choices).2 = true then ((processAzureChoices choices).1, false)
          else ((processAzureChoices choices).1 ++ (handleAzureOpenAIStreamingLines decode rest).1,
                (handleAzureOpenAIStreamingLines decode rest).2)).2 = false
    rw [if_pos hd]
    rw [if_pos hd]
    exact ⟨rfl, rfl⟩

/-- Witness for C9 at a concrete decoded chunk whose single choice
carries the finish reason `stop`. -/
theorem c9_finish_reason_terminates_witness :
    handleAzureOpenAIStreamingLines
        (fun _ => some [⟨⟨"hi".toList⟩, "stop".toList⟩])
        (("data: ".toList ++ "x".toList) :: ["ignored".toList])
      = handleAzureOpenAIStreamingLines
          (fun _ => some [⟨⟨"hi".toList⟩, "stop".toList⟩])
          (("data: ".toList ++ "x".toList) :: [])
    ∧ (handleAzureOpenAIStreamingLines
        (fun _ => some [⟨⟨"hi".toList⟩, "stop".toList⟩])
        (("data: ".toList ++ "x".toList) :: ["ignored".toList])).2 = false :=
  c9_finish_reason_terminates _ "x".toList [⟨⟨"hi".toList⟩, "stop".toList⟩] _ _ rfl
    ⟨⟨⟨"hi".toList⟩, "stop".toList⟩, by simp, by decide⟩

/-- C10: in the Claude streaming handler, a `content_block_delta` event
whose decoded text delta is the empty string has no observable effect:
no chunk is emitted (hence neither the channel send nor the callback at
src/diff/llm.go:261-266 fires) and processing continues as if the line
were absent. -/
theorem c10_empty_delta_no_effect :
    ∀ (decode : List Char → Option StreamEvent) (payload : List Char)
      (ev : StreamEvent) (d : StreamDelta) (rest : List (List Char)),
      decode payload = some ev → ev.delta = some d → d.text = [] →
      handleClaudeStreamingLines decode (("data: ".toList ++ payload) :: rest)
          "content_block_delta".toList
        = handleClaudeStreamingLines decode rest "content_block_delta".toList := by
  intro decode payload ev d rest hdec hdelta htext
  have hstep := claudeLines_data_step decode payload rest "content_block_delta".toList
  rw [hdec] at hstep
  rw [if_neg (show ¬(("content_block_delta".toList : List Char) = "ping".toList) by decide)]
    at hstep
  have hstep2 : handleClaudeStreamingLines decode (("data: ".toList ++ payload) :: rest)
      "content_block_delta".toList
      = match ev.delta with
        | some d' =>
          if d'.dtype = "text_delta".toList ∧ d'.text ≠ [] then
            let r := handleClaudeStreamingLines decode rest "content_block_delta".toList
            (d'.text :: r.1, r.2)
          else handleClaudeStreamingLines decode rest "content_block_delta".toList
        | none => handleClaudeStreamingLines decode rest "content_block_delta".toList := hstep
  rw [hdelta] at hstep2
  have hstep3 : handleClaudeStreamingLines decode (("data: ".toList ++ payload) :: rest)
      "content_block_delta".toList
      = if d.dtype = "text_delta".toList ∧ d.text ≠ [] then
          let r := handleClaudeStreamingLines decode rest "content_block_delta".toList
          (d.text :: r.1, r.2)
        else handleClaudeStreamingLines decode rest "content_block_delta".toList := hstep2
  rw [if_neg (fun hcontra => hcontra.2 htext)] at hstep3
  exact hstep3

/-- Witness for C10 at a concrete event whose text delta is empty. -/
theorem c10_empty_delta_no_effect_witness :
    handleClaudeStreamingLines
        (fun _ => some ⟨some ⟨"text_delta".toList, []⟩, none⟩)
        (("data: ".toList ++ "p".toList) :: []) "content_block_delta".toList
      = handleClaudeStreamingLines
          (fun _ => some ⟨some ⟨"text_delta".toList, []⟩, none⟩)
          [] "content_block_delta".toList :=
  c10_empty_delta_no_effect _ "p".toList ⟨some ⟨"text_delta".toList, []⟩, none⟩
    ⟨"text_delta".toList, []⟩ [] rfl rfl rfl

end Difx
